import Mathlib

/-!
Shallow embedding of `sketch-dataset`'s duplicate-artboard pipeline
(`src/datasets/find_duplicate_sketch_artboard.py`, with the shared helper in
`src/utils/sketch_utils.py`), together with proofs of the specified
properties of the grouping engine, the similarity comparator, the error-log
aggregation, the missing-font extraction and the group materializer.

Decoded images (`np.array(Image.open(p))`) are modelled as an explicit shape
list plus a pixel function; pixel arithmetic is exact (numpy casts to float64
before subtracting, and all quantities involved are integers, so the mean
squared error is the rational `sum / count`). File paths are strings; the
filesystem/glob boundary is modelled by passing the list of artboard paths
and the path-to-image decoding function as parameters.
-/

namespace SketchDataset

/-! ### Decoded images and `compare_image` -/

/-- A decoded raster image: numpy array with a shape tuple (list of axis
lengths, `shape[0]` = height, `shape[1]` = width, `shape[2]` = channels)
and integer pixel values, indexed row, column, channel. -/
structure NDArray where
  shape : List ℕ
  pix : ℕ → ℕ → ℕ → ℤ

/-- Sum of squared pixel differences over the top-left-aligned region of
`x` rows, `y` columns and `c` channels (the numerator of `sewar`'s `mse`). -/
def sumSq (a b : NDArray) (x y c : ℕ) : ℤ :=
  ∑ i ∈ Finset.range x, ∑ j ∈ Finset.range y, ∑ k ∈ Finset.range c,
    (a.pix i j k - b.pix i j k) ^ 2

/-- Mean squared error over the cropped common region: sum of squared
differences divided by the number of compared entries. -/
def mseCrop (a b : NDArray) (x y c : ℕ) : ℚ :=
  (sumSq a b x y c : ℚ) / ((x * y * c : ℕ) : ℚ)

/-- `compare_image(image1, image2)`: reads `shape[0]`, `shape[1]`, `shape[2]`
of both arrays (failing, like the Python `IndexError`, when a shape has
fewer than three axes), crops both images to the common minimum extent and
returns whether the mean squared error is strictly below 500. -/
def compare_image (a b : NDArray) : Option Bool := do
  let a0 ← a.shape.get? 0
  let b0 ← b.shape.get? 0
  let a1 ← a.shape.get? 1
  let b1 ← b.shape.get? 1
  let a2 ← a.shape.get? 2
  let b2 ← b.shape.get? 2
  pure (decide (mseCrop a b (min a0 b0) (min a1 b1) (min a2 b2) < 500))

/-! ### The grouping engine `merge_artboard_group` -/

/-- An open group of the greedy sub-clustering: its first-inserted member
(the representative, `group[0]`) together with the later members in
insertion order.  The full member list is `rep :: members`. -/
def groupList (g : String × List String) : List String := g.1 :: g.2

/-- The inner `for group in sub_image_groups` loop body for one candidate
path `p`: scan the open groups in creation order; on the first group whose
representative matches, append `p` to that group and stop (`break`);
return the updated groups and whether a match was found. -/
def scanGroups (sim : String → String → Bool) (p : String) :
    List (String × List String) → List (String × List String) × Bool
  | [] => ([], false)
  | (r, ms) :: gs =>
    if sim p r then ((r, ms ++ [p]) :: gs, true)
    else
      let rest := scanGroups sim p gs
      ((r, ms) :: rest.1, rest.2)

/-- Process one candidate path: append it to the first matching open group,
or (`if not match`) start a new singleton group at the end. -/
def insertPath (sim : String → String → Bool)
    (groups : List (String × List String)) (p : String) :
    List (String × List String) :=
  let res := scanGroups sim p groups
  if res.2 then res.1 else res.1 ++ [(p, [])]

/-- Greedy sub-clustering of one size bucket: fold the candidate paths in
input order through `insertPath`, starting from no open groups. -/
def subgroup (sim : String → String → Bool) (paths : List String) :
    List (String × List String) :=
  paths.foldl (insertPath sim) []

/-- One step of `size_groups.setdefault(key, []).append(path)` on an
insertion-ordered association list of buckets: append the path to the
bucket with this key, or create a new bucket at the end. -/
def addToBuckets (key : List ℕ) (p : String) :
    List (List ℕ × List String) → List (List ℕ × List String)
  | [] => [(key, [p])]
  | (k, ps) :: bs =>
    if k = key then (k, ps ++ [p]) :: bs else (k, ps) :: addToBuckets key p bs

/-- Bucketing phase: place every path into the bucket keyed by its image's
`shape[:2]`, preserving input order inside each bucket and first-seen
order of the buckets themselves. -/
def buildBuckets (sz : String → List ℕ) (paths : List String) :
    List (List ℕ × List String) :=
  paths.foldl (fun bs p => addToBuckets (sz p) p bs) []

/-- The grouping engine with the similarity test and size key abstracted:
bucket all paths, greedily sub-cluster each bucket, and concatenate the
groups of all buckets (`image_groups.extend(sub_image_groups)`). -/
def mergeCore (sim : String → String → Bool) (sz : String → List ℕ)
    (paths : List String) : List (List String) :=
  (buildBuckets sz paths).flatMap fun b => (subgroup sim b.2).map groupList

/-- The similarity test actually used by the engine: `compare_image` on the
decoded images (`True`/`False`; an exceptional `none` never matches). -/
def simOf (img : String → NDArray) (p q : String) : Bool :=
  (compare_image (img p) (img q)).getD false

/-- The bucketing key actually used by the engine: `shape[:2]` of the
decoded image. -/
def szKey (img : String → NDArray) (p : String) : List ℕ :=
  ((img p).shape.take 2)

/-- `merge_artboard_group`: the full grouping engine, parameterized by the
decoding function `img` (the image cache) and the list of exported
artboard paths found on disk. -/
def merge_artboard_group (img : String → NDArray) (paths : List String) :
    List (List String) :=
  mergeCore (simOf img) (szKey img) paths

/-- The persisted manifest (`sim_groups.json`): the engine's groups with
singletons removed (`filter(lambda x: len(x) > 1, ...)`). -/
def sim_groups (img : String → NDArray) (paths : List String) :
    List (List String) :=
  (merge_artboard_group img paths).filter fun g => 1 < g.length

/-! ### Instrumented engine: the comparisons actually performed -/

/-- The comparator invocations made while scanning the open groups for one
candidate `p`, as (candidate, representative) pairs in scan order. -/
def scanTrace (sim : String → String → Bool) (p : String) :
    List (String × List String) → List (String × String)
  | [] => []
  | (r, _) :: gs =>
    if sim p r then [(p, r)] else (p, r) :: scanTrace sim p gs

/-- One instrumented fold step: update the open groups and record the
comparisons made for this candidate. -/
def subgroupStepT (sim : String → String → Bool)
    (st : List (String × List String) × List (String × String))
    (p : String) :
    List (String × List String) × List (String × String) :=
  (insertPath sim st.1 p, st.2 ++ scanTrace sim p st.1)

/-- Instrumented greedy sub-clustering of one bucket: final open groups
together with every comparator invocation made. -/
def subgroupT (sim : String → String → Bool) (paths : List String) :
    List (String × List String) × List (String × String) :=
  paths.foldl (subgroupStepT sim) ([], [])

/-- All comparator invocations made by the whole engine, as
(candidate, representative) pairs. -/
def mergeTrace (sim : String → String → Bool) (sz : String → List ℕ)
    (paths : List String) : List (String × String) :=
  (buildBuckets sz paths).flatMap fun b => (subgroupT sim b.2).2

/-! ### Group materializer (`__main__` composite-strip rendering) -/

/-- PIL `Image.open(p).size` of a decoded image: `(width, height)`, i.e.
`(shape[1], shape[0])` of the numpy array. -/
def pilSize (img : String → NDArray) (p : String) : ℕ × ℕ :=
  ((img p).shape.getD 1 0, (img p).shape.getD 0 0)

/-- Size of the composite strip created by
`Image.new(mode='RGB', size=(first.width * n, first.height))`,
from the member sizes in group order. -/
def compositeSize (sizes : List (ℕ × ℕ)) : ℕ × ℕ :=
  ((sizes.headD (0, 0)).1 * sizes.length, (sizes.headD (0, 0)).2)

/-- The x-offsets at which the members are pasted, in group order:
`new_image.paste(image, (i * image.size[0], 0))` pastes member `i` at
`i` times its own width. -/
def pasteOffsetsAux : ℕ → List (ℕ × ℕ) → List ℕ
  | _, [] => []
  | i, s :: ss => (i * s.1) :: pasteOffsetsAux (i + 1) ss

/-- Paste x-offsets of all members of a group, from their sizes. -/
def pasteOffsets (sizes : List (ℕ × ℕ)) : List ℕ :=
  pasteOffsetsAux 0 sizes

/-- Modelled from the spec's wording of the materializer layout, for
comparison with the code's `pasteOffsets`: each member is pasted at an
x-offset equal to the cumulative width of all members before it. -/
def specCumulativeOffsets : ℕ → List (ℕ × ℕ) → List ℕ
  | _, [] => []
  | acc, s :: ss => acc :: specCumulativeOffsets (acc + s.1) ss

/-! ### Error-log aggregation (`process`) -/

/-- Python `str.strip()` whitespace characters (the ASCII ones). -/
def pyWS (c : Char) : Bool :=
  c = ' ' || c = '\t' || c = '\n' || c = '\x0b' || c = '\x0c' || c = '\r'

/-- Python `s.strip()`: drop leading and trailing whitespace. -/
def pyStrip (cs : List Char) : List Char :=
  ((cs.dropWhile pyWS).reverse.dropWhile pyWS).reverse

/-- Python `s.split("\n")`: split on every newline, keeping empty pieces
(`"".split("\n") == [""]`). -/
def splitNl : List Char → List (List Char)
  | [] => [[]]
  | c :: rest =>
    match splitNl rest, decide (c = '\n') with
    | pieces, true => [] :: pieces
    | [], false => [[c]]
    | piece :: pieces, false => (c :: piece) :: pieces

/-- The content of the error-log file written by `process`, as the
deduplicated collection of written lines: every non-empty collected
stderr string is stripped, split on newlines, and each piece is written
as a line `piece + "\n"`; exact duplicate lines are removed (the Python
`set`), so only the set of lines is specified. -/
def errorLogLines (stderrs : List String) : List String :=
  (((stderrs.filter fun s => s ≠ "").flatMap
      fun s => splitNl (pyStrip s.toList)).map
    fun l => String.mk (l ++ ['\n'])).dedup

/-! ### Missing-font extraction (`get_missing_font`) -/

/-- The literal part of the regex
`.+Client requested name \"(((?!\").)+)\"`. -/
def fontLit : List Char := "Client requested name \"".toList

/-- Attempt to match `Client requested name \"(((?!\").)+)\"` at the head
of `cs`: the literal, then one or more characters that are neither a
quote nor a newline (greedy, so up to the next quote), then the closing
quote; returns the captured group. -/
def captureAt (cs : List Char) : Option (List Char) :=
  if fontLit.isPrefixOf cs then
    let rest := cs.drop fontLit.length
    let name := rest.takeWhile fun c => !(c = '"' || c = '\n')
    if 0 < name.length ∧ rest.get? name.length = some '"' then some name
    else none
  else none

/-- The start positions at which the tail of the regex can match, after a
non-empty all-`.`-matchable prefix (`.+` forces at least one preceding
character, none of which may be a newline). -/
def matchPositions (cs : List Char) : List ℕ :=
  (List.range cs.length).filter fun i =>
    decide (0 < i) && (cs.take i).all (fun c => c ≠ '\n') &&
      (captureAt (cs.drop i)).isSome

/-- `re.match(r".+Client requested name \"(((?!\").)+)\"", line)`: the
greedy `.+` backtracks from the right, so the capture comes from the
largest feasible start position; `none` when the line does not match. -/
def lineCapture (cs : List Char) : Option (List Char) :=
  (matchPositions cs).getLast?.bind fun i => captureAt (cs.drop i)

/-- Python string comparison (`sorted`): lexicographic on code points,
with a proper prefix ordered first. -/
def lexLe : List Char → List Char → Bool
  | [], _ => true
  | _ :: _, [] => false
  | a :: as, b :: bs => if a = b then lexLe as bs else decide (a < b)

/-- `get_missing_font(error_file)`: scan every line of the error log with
the regex, collect the captured font names into a set, and return them
sorted (`list(sorted(missing_fonts))`). -/
def get_missing_font (lines : List String) : List String :=
  (List.insertionSort (fun a b => lexLe a b = true)
      ((lines.filterMap fun l => lineCapture l.toList).dedup)).map String.mk

/-! ### Concrete fixtures used to instantiate the general theorems -/

/-- A 1×1×1 image with pixel value 0. -/
def imgZero : NDArray := { shape := [1, 1, 1], pix := fun _ _ _ => 0 }

/-- A 1×1×1 image with pixel value 100 (MSE 10000 against `imgZero`). -/
def imgFar : NDArray := { shape := [1, 1, 1], pix := fun _ _ _ => 100 }

/-- A 2×2×1 zero image (different pixel dimensions from `imgZero`). -/
def imgBig : NDArray := { shape := [2, 2, 1], pix := fun _ _ _ => 0 }

/-- A two-axis (grayscale) decoded array. -/
def imgGray : NDArray := { shape := [5, 7], pix := fun _ _ _ => 0 }

/-- A concrete image cache: paths `A` and `B` decode to identical 1×1
images, `C` to a far-away same-size image, `D` to a larger image. -/
def wImg : String → NDArray := fun p =>
  if p = "C" then imgFar else if p = "D" then imgBig else imgZero

/-- A 100×100×1 image whose first ten rows have value 10 (MSE 10 against
`flatImg`). -/
def stripeImg : NDArray :=
  { shape := [100, 100, 1], pix := fun i _ _ => if i < 10 then 10 else 0 }

/-- A 100×100×1 zero image. -/
def flatImg : NDArray := { shape := [100, 100, 1], pix := fun _ _ _ => 0 }

/-- A 100×100×1 image with constant value 30 (MSE 900 against `flatImg`). -/
def constImg : NDArray := { shape := [100, 100, 1], pix := fun _ _ _ => 30 }

/-! ## Theorems -/

/-! ### Arithmetic helpers for the mean-squared-error comparator -/

theorem sum_ite_lt (x t : ℕ) (C : ℤ) :
    (∑ i ∈ Finset.range x, if i < t then C else 0) = ((min t x : ℕ) : ℤ) * C := by
  induction x with
  | zero => simp
  | succ n ih =>
    rw [Finset.sum_range_succ, ih]
    by_cases hn : n < t
    · rw [if_pos hn]
      have hm : min t (n + 1) = min t n + 1 := by omega
      rw [hm]
      push_cast
      ring
    · rw [if_neg hn]
      have hm : min t (n + 1) = min t n := by omega
      rw [hm]
      ring

theorem sumSq_stripe (a b : NDArray) (x y c t : ℕ) (d : ℤ)
    (h : ∀ i j k, i < x → j < y → k < c →
      a.pix i j k - b.pix i j k = if i < t then d else 0) :
    sumSq a b x y c = ((min t x : ℕ) : ℤ) * (y * c * d ^ 2) := by
  unfold sumSq
  have hrow : ∀ i ∈ Finset.range x,
      (∑ j ∈ Finset.range y, ∑ k ∈ Finset.range c,
        (a.pix i j k - b.pix i j k) ^ 2) =
      if i < t then (y : ℤ) * c * d ^ 2 else 0 := by
    intro i hi
    rw [Finset.mem_range] at hi
    have hcell : ∀ j ∈ Finset.range y, ∀ k ∈ Finset.range c,
        (a.pix i j k - b.pix i j k) ^ 2 = if i < t then d ^ 2 else 0 := by
      intro j hj k hk
      rw [Finset.mem_range] at hj
      rw [Finset.mem_range] at hk
      rw [h i j k hi hj hk]
      by_cases hit : i < t <;> simp [hit]
    by_cases hit : i < t
    · rw [if_pos hit]
      calc (∑ j ∈ Finset.range y, ∑ k ∈ Finset.range c,
              (a.pix i j k - b.pix i j k) ^ 2)
          = ∑ j ∈ Finset.range y, ∑ k ∈ Finset.range c, d ^ 2 := by
            refine Finset.sum_congr rfl fun j hj => Finset.sum_congr rfl fun k hk => ?_
            rw [hcell j hj k hk, if_pos hit]
        _ = (y : ℤ) * c * d ^ 2 := by
            simp [Finset.sum_const, Finset.card_range]
            ring
    · rw [if_neg hit]
      calc (∑ j ∈ Finset.range y, ∑ k ∈ Finset.range c,
              (a.pix i j k - b.pix i j k) ^ 2)
          = ∑ j ∈ Finset.range y, ∑ k ∈ Finset.range c, (0 : ℤ) := by
            refine Finset.sum_congr rfl fun j hj => Finset.sum_congr rfl fun k hk => ?_
            rw [hcell j hj k hk, if_neg hit]
        _ = 0 := by simp
  rw [Finset.sum_congr rfl hrow, sum_ite_lt]

theorem mseCrop_of_sumSq (a b : NDArray) (x y c : ℕ) (s : ℤ)
    (h : sumSq a b x y c = s) :
    mseCrop a b x y c = (s : ℚ) / ((x * y * c : ℕ) : ℚ) := by
  rw [mseCrop, h]

/-- Helper: evaluate `compare_image` on three-axis shapes. -/
theorem compare_image_eq (a b : NDArray) (a0 b0 a1 b1 a2 b2 : ℕ)
    (ha0 : a.shape.get? 0 = some a0) (hb0 : b.shape.get? 0 = some b0)
    (ha1 : a.shape.get? 1 = some a1) (hb1 : b.shape.get? 1 = some b1)
    (ha2 : a.shape.get? 2 = some a2) (hb2 : b.shape.get? 2 = some b2) :
    compare_image a b =
      some (decide (mseCrop a b (min a0 b0) (min a1 b1) (min a2 b2) < 500)) := by
  rw [compare_image, ha0, hb0, ha1, hb1, ha2, hb2]
  rfl

/-- C2: for every pair of decoded images (with at least three shape axes,
as the comparator requires), `compare_image` returns true iff the mean
squared error over the largest common top-left-aligned region (minimum
height, width and channel count) is strictly below 500; two 100×100
images with mean squared error 10 compare as true, and with error 900 as
false. -/
theorem compare_image_mse_spec :
    (∀ a b a0 b0 a1 b1 a2 b2,
      a.shape.get? 0 = some a0 → b.shape.get? 0 = some b0 →
      a.shape.get? 1 = some a1 → b.shape.get? 1 = some b1 →
      a.shape.get? 2 = some a2 → b.shape.get? 2 = some b2 →
      (compare_image a b = some true ↔
        mseCrop a b (min a0 b0) (min a1 b1) (min a2 b2) < 500)) ∧
    (∀ a b c, a.shape = [100, 100, c] → b.shape = [100, 100, c] →
      mseCrop a b 100 100 c = 10 → compare_image a b = some true) ∧
    (∀ a b c, a.shape = [100, 100, c] → b.shape = [100, 100, c] →
      mseCrop a b 100 100 c = 900 → compare_image a b = some false) := by
  refine ⟨?_, ?_, ?_⟩
  · intro a b a0 b0 a1 b1 a2 b2 ha0 hb0 ha1 hb1 ha2 hb2
    rw [compare_image_eq a b a0 b0 a1 b1 a2 b2 ha0 hb0 ha1 hb1 ha2 hb2]
    constructor
    · intro h
      have := Option.some.inj h
      exact of_decide_eq_true this
    · intro h
      rw [decide_eq_true h]
  · intro a b c ha hb hmse
    rw [compare_image_eq a b 100 100 100 100 c c (by rw [ha]; rfl) (by rw [hb]; rfl)
      (by rw [ha]; rfl) (by rw [hb]; rfl) (by rw [ha]; rfl) (by rw [hb]; rfl)]
    have : mseCrop a b (min 100 100) (min 100 100) (min c c) < 500 := by
      simp only [min_self]
      rw [hmse]
      norm_num
    rw [decide_eq_true this]
  · intro a b c ha hb hmse
    rw [compare_image_eq a b 100 100 100 100 c c (by rw [ha]; rfl) (by rw [hb]; rfl)
      (by rw [ha]; rfl) (by rw [hb]; rfl) (by rw [ha]; rfl) (by rw [hb]; rfl)]
    have : ¬ mseCrop a b (min 100 100) (min 100 100) (min c c) < 500 := by
      simp only [min_self]
      rw [hmse]
      norm_num
    rw [decide_eq_false this]

theorem compare_image_mse_spec_witness :
    compare_image stripeImg flatImg = some true ∧
    compare_image constImg flatImg = some false := by
  constructor
  · refine compare_image_mse_spec.2.1 stripeImg flatImg 1 rfl rfl ?_
    have hs : sumSq stripeImg flatImg 100 100 1 = ((min 10 100 : ℕ) : ℤ) * (100 * 1 * 10 ^ 2) := by
      refine sumSq_stripe stripeImg flatImg 100 100 1 10 10 ?_
      intro i j k _ _ _
      by_cases hi : i < 10 <;> simp [stripeImg, flatImg, hi]
    rw [mseCrop_of_sumSq stripeImg flatImg 100 100 1 _ hs]
    norm_num
  · refine compare_image_mse_spec.2.2 constImg flatImg 1 rfl rfl ?_
    have hs : sumSq constImg flatImg 100 100 1 = ((min 100 100 : ℕ) : ℤ) * (100 * 1 * 30 ^ 2) := by
      refine sumSq_stripe constImg flatImg 100 100 1 100 30 ?_
      intro i j k hi _ _
      simp [constImg, flatImg, hi]
    rw [mseCrop_of_sumSq constImg flatImg 100 100 1 _ hs]
    norm_num

/-- C10: the comparator reads `shape[2]` of both arrays, so on a decoded
two-axis grayscale array it fails (the modelled `IndexError`) instead of
returning a boolean. -/
theorem compare_image_two_axis_spec :
    ∀ a b : NDArray, a.shape.length = 2 ∨ b.shape.length = 2 →
      compare_image a b = none := by
  intro a b h
  rcases h with h | h
  · obtain ⟨x, y, hxy⟩ := List.length_eq_two.mp h
    cases hb0 : b.shape.get? 0 <;> cases hb1 : b.shape.get? 1 <;>
      simp [compare_image, hxy, hb0, hb1]
  · obtain ⟨x, y, hxy⟩ := List.length_eq_two.mp h
    cases ha0 : a.shape.get? 0 <;> cases ha1 : a.shape.get? 1 <;>
      cases ha2 : a.shape.get? 2 <;>
      simp [compare_image, hxy, ha0, ha1, ha2]

theorem compare_image_two_axis_spec_witness :
    compare_image imgGray imgZero = none :=
  compare_image_two_axis_spec imgGray imgZero (Or.inl rfl)

/-! ### Structural lemmas about the greedy sub-clustering -/

theorem scanGroups_reps (sim : String → String → Bool) (p : String) :
    ∀ gs : List (String × List String),
      (scanGroups sim p gs).1.map Prod.fst = gs.map Prod.fst := by
  intro gs
  induction gs with
  | nil => rfl
  | cons g gs ih =>
    obtain ⟨r, ms⟩ := g
    by_cases h : sim p r <;> simp [scanGroups, h, ih]

theorem scanGroups_not_matched (sim : String → String → Bool) (p : String) :
    ∀ gs : List (String × List String),
      (scanGroups sim p gs).2 = false → (scanGroups sim p gs).1 = gs := by
  intro gs
  induction gs with
  | nil => intro; rfl
  | cons g gs ih =>
    obtain ⟨r, ms⟩ := g
    by_cases h : sim p r <;> simp [scanGroups, h]
    intro h2
    exact ih h2

theorem scanGroups_mem (sim : String → String → Bool) (p : String) :
    ∀ gs : List (String × List String), ∀ g' ∈ (scanGroups sim p gs).1,
      g' ∈ gs ∨ ∃ r ms, (r, ms) ∈ gs ∧ g' = (r, ms ++ [p]) ∧ sim p r = true := by
  intro gs
  induction gs with
  | nil => intro g' h; exact absurd h (by simp [scanGroups])
  | cons g gs ih =>
    obtain ⟨r, ms⟩ := g
    intro g' hg'
    by_cases h : sim p r
    · rw [scanGroups, if_pos h] at hg'
      rcases List.mem_cons.mp hg' with h1 | h1
      · exact Or.inr ⟨r, ms, by simp, h1, h⟩
      · exact Or.inl (List.mem_cons_of_mem _ h1)
    · rw [scanGroups, if_neg h] at hg'
      rcases List.mem_cons.mp hg' with h1 | h1
      · exact Or.inl (h1 ▸ List.mem_cons_self _ _)
      · rcases ih g' h1 with h2 | ⟨r', ms', hmem, he, hs⟩
        · exact Or.inl (List.mem_cons_of_mem _ h2)
        · exact Or.inr ⟨r', ms', List.mem_cons_of_mem _ hmem, he, hs⟩

theorem insertPath_mem (sim : String → String → Bool)
    (gs : List (String × List String)) (p : String) :
    ∀ g' ∈ insertPath sim gs p,
      g' ∈ gs ∨ g' = (p, []) ∨
        ∃ r ms, (r, ms) ∈ gs ∧ g' = (r, ms ++ [p]) ∧ sim p r = true := by
  intro g' hg'
  rw [insertPath] at hg'
  by_cases h : (scanGroups sim p gs).2
  · rw [if_pos h] at hg'
    rcases scanGroups_mem sim p gs g' hg' with h1 | h1
    · exact Or.inl h1
    · exact Or.inr (Or.inr h1)
  · rw [if_neg h, scanGroups_not_matched sim p gs (by simpa using h)] at hg'
    rcases List.mem_append.mp hg' with h1 | h1
    · exact Or.inl h1
    · exact Or.inr (Or.inl (by simpa using h1))

theorem scanGroups_join_matched (sim : String → String → Bool) (p : String) :
    ∀ gs : List (String × List String), (scanGroups sim p gs).2 = true →
      ((scanGroups sim p gs).1.flatMap groupList).Perm
        (p :: gs.flatMap groupList) := by
  intro gs
  induction gs with
  | nil => intro h; exact absurd h (by simp [scanGroups])
  | cons g gs ih =>
    obtain ⟨r, ms⟩ := g
    intro hm
    by_cases h : sim p r
    · rw [scanGroups, if_pos h]
      simp only [List.flatMap_cons, groupList, List.cons_append, List.append_assoc,
        List.singleton_append]
      exact (List.perm_middle.cons r).trans (List.Perm.swap p r _)
    · have hrec : (scanGroups sim p ((r, ms) :: gs)).2 = (scanGroups sim p gs).2 := by
        simp [scanGroups, h]
      have hfst : (scanGroups sim p ((r, ms) :: gs)).1 =
          (r, ms) :: (scanGroups sim p gs).1 := by
        simp [scanGroups, h]
      rw [hrec] at hm
      rw [hfst]
      simp only [List.flatMap_cons]
      exact ((ih hm).append_left (groupList (r, ms))).trans List.perm_middle

theorem insertPath_join (sim : String → String → Bool)
    (gs : List (String × List String)) (p : String) :
    ((insertPath sim gs p).flatMap groupList).Perm (p :: gs.flatMap groupList) := by
  rw [insertPath]
  by_cases h : (scanGroups sim p gs).2
  · rw [if_pos h]
    exact scanGroups_join_matched sim p gs (by simpa using h)
  · rw [if_neg h, scanGroups_not_matched sim p gs (by simpa using h)]
    simp only [List.flatMap_append, List.flatMap_cons, List.flatMap_nil, groupList]
    have he : gs.flatMap groupList ++ ([p] ++ []) = gs.flatMap groupList ++ p :: [] := by
      simp
    rw [he]
    simp

theorem foldl_insertPath_join (sim : String → String → Bool) :
    ∀ (paths : List String) (init : List (String × List String)),
      ((paths.foldl (insertPath sim) init).flatMap groupList).Perm
        (init.flatMap groupList ++ paths) := by
  intro paths
  induction paths with
  | nil => intro init; simp
  | cons p ps ih =>
    intro init
    rw [List.foldl_cons]
    refine (ih (insertPath sim init p)).trans ?_
    have h1 := insertPath_join sim init p
    exact (h1.append_right ps).trans List.perm_middle.symm

theorem subgroup_join (sim : String → String → Bool) (paths : List String) :
    ((subgroup sim paths).flatMap groupList).Perm paths := by
  have := foldl_insertPath_join sim paths []
  simpa [subgroup] using this

/-! ### Structural lemmas about the bucketing phase -/

theorem addToBuckets_join (key : List ℕ) (p : String) :
    ∀ bs : List (List ℕ × List String),
      ((addToBuckets key p bs).flatMap fun b => b.2).Perm
        (p :: bs.flatMap fun b => b.2) := by
  intro bs
  induction bs with
  | nil => simp [addToBuckets]
  | cons b bs ih =>
    obtain ⟨k, ps⟩ := b
    by_cases h : k = key
    · rw [addToBuckets, if_pos h]
      simp only [List.flatMap_cons]
      have he : ((ps ++ [p]) ++ bs.flatMap fun b => b.2) =
          ps ++ (p :: bs.flatMap fun b => b.2) := by simp
      rw [he]
      exact List.perm_middle
    · rw [addToBuckets, if_neg h]
      simp only [List.flatMap_cons]
      exact (ih.append_left ps).trans List.perm_middle

theorem foldl_addToBuckets_join (sz : String → List ℕ) :
    ∀ (paths : List String) (init : List (List ℕ × List String)),
      (((paths.foldl (fun bs p => addToBuckets (sz p) p bs) init)).flatMap
        fun b => b.2).Perm ((init.flatMap fun b => b.2) ++ paths) := by
  intro paths
  induction paths with
  | nil => intro init; simp
  | cons p ps ih =>
    intro init
    rw [List.foldl_cons]
    refine (ih _).trans ?_
    have h1 := addToBuckets_join (sz p) p init
    exact (h1.append_right ps).trans List.perm_middle.symm

theorem buildBuckets_join (sz : String → List ℕ) (paths : List String) :
    ((buildBuckets sz paths).flatMap fun b => b.2).Perm paths := by
  have := foldl_addToBuckets_join sz paths []
  simpa [buildBuckets] using this

theorem addToBuckets_sz (sz : String → List ℕ) (p : String) :
    ∀ bs : List (List ℕ × List String),
      (∀ b ∈ bs, ∀ q ∈ b.2, sz q = b.1) →
      ∀ b ∈ addToBuckets (sz p) p bs, ∀ q ∈ b.2, sz q = b.1 := by
  intro bs
  induction bs with
  | nil =>
    intro _ b hb q hq
    simp [addToBuckets] at hb
    subst hb
    simp at hq
    subst hq
    rfl
  | cons b0 bs ih =>
    obtain ⟨k, ps⟩ := b0
    intro hinv b hb q hq
    by_cases h : k = sz p
    · rw [addToBuckets, if_pos h] at hb
      rcases List.mem_cons.mp hb with h1 | h1
      · subst h1
        rcases List.mem_append.mp hq with h2 | h2
        · exact hinv (k, ps) (List.mem_cons_self _ _) q h2
        · simp at h2
          subst h2
          simp [h]
      · exact hinv b (List.mem_cons_of_mem _ h1) q hq
    · rw [addToBuckets, if_neg h] at hb
      rcases List.mem_cons.mp hb with h1 | h1
      · subst h1
        exact hinv (k, ps) (List.mem_cons_self _ _) q hq
      · exact ih (fun b' hb' => hinv b' (List.mem_cons_of_mem _ hb')) b h1 q hq

theorem buildBuckets_sz (sz : String → List ℕ) (paths : List String) :
    ∀ b ∈ buildBuckets sz paths, ∀ q ∈ b.2, sz q = b.1 := by
  have gen : ∀ (l : List String) (init : List (List ℕ × List String)),
      (∀ b ∈ init, ∀ q ∈ b.2, sz q = b.1) →
      ∀ b ∈ l.foldl (fun bs p => addToBuckets (sz p) p bs) init,
        ∀ q ∈ b.2, sz q = b.1 := by
    intro l
    induction l with
    | nil => intro init hinv; simpa using hinv
    | cons p ps ih =>
      intro init hinv
      rw [List.foldl_cons]
      exact ih _ (addToBuckets_sz sz p init hinv)
  exact gen paths [] (by simp)

theorem addToBuckets_keys (key : List ℕ) (p : String) :
    ∀ bs : List (List ℕ × List String),
      (addToBuckets key p bs).map Prod.fst =
        if key ∈ bs.map Prod.fst then bs.map Prod.fst
        else bs.map Prod.fst ++ [key] := by
  intro bs
  induction bs with
  | nil => simp [addToBuckets]
  | cons b bs ih =>
    obtain ⟨k, ps⟩ := b
    by_cases h : k = key
    · rw [addToBuckets, if_pos h]
      subst h
      simp
    · rw [addToBuckets, if_neg h]
      simp only [List.map_cons]
      rw [ih]
      by_cases h2 : key ∈ bs.map Prod.fst
      · rw [if_pos h2, if_pos (by simp [h2])]
      · rw [if_neg h2, if_neg ?_]
        · simp
        · simp only [List.mem_cons]
          push_neg
          exact ⟨fun he => h he.symm, h2⟩

theorem buildBuckets_keys_nodup (sz : String → List ℕ) (paths : List String) :
    ((buildBuckets sz paths).map Prod.fst).Nodup := by
  have gen : ∀ (l : List String) (init : List (List ℕ × List String)),
      (init.map Prod.fst).Nodup →
      ((l.foldl (fun bs p => addToBuckets (sz p) p bs) init).map Prod.fst).Nodup := by
    intro l
    induction l with
    | nil => intro init h; simpa using h
    | cons p ps ih =>
      intro init h
      rw [List.foldl_cons]
      refine ih _ ?_
      rw [addToBuckets_keys]
      by_cases h2 : sz p ∈ init.map Prod.fst
      · rwa [if_pos h2]
      · rw [if_neg h2]
        rw [List.nodup_append]
        refine ⟨h, List.nodup_singleton _, ?_⟩
        intro x hx hx2
        simp only [List.mem_singleton] at hx2
        subst hx2
        exact h2 hx
  exact gen paths [] (by simp)

theorem eq_of_keys_nodup :
    ∀ (bs : List (List ℕ × List String)) (b1 b2 : List ℕ × List String),
      (bs.map Prod.fst).Nodup → b1 ∈ bs → b2 ∈ bs → b1.1 = b2.1 → b1 = b2 := by
  intro bs
  induction bs with
  | nil => intro b1 b2 _ h1; exact absurd h1 (List.not_mem_nil _)
  | cons b bs ih =>
    intro b1 b2 hnd h1 h2 hk
    rw [List.map_cons, List.nodup_cons] at hnd
    rcases List.mem_cons.mp h1 with e1 | e1 <;> rcases List.mem_cons.mp h2 with e2 | e2
    · rw [e1, e2]
    · exfalso
      apply hnd.1
      have hb : b.1 = b2.1 := by rw [← e1]; exact hk
      rw [hb]
      exact List.mem_map_of_mem Prod.fst e2
    · exfalso
      apply hnd.1
      have hb : b.1 = b1.1 := by rw [← e2]; exact hk.symm
      rw [hb]
      exact List.mem_map_of_mem Prod.fst e1
    · exact ih b1 b2 hnd.2 e1 e2 hk

theorem flatten_flatMap_eq {α β : Type} (l : List α) (f : α → List (List β)) :
    (l.flatMap f).flatten = l.flatMap fun a => (f a).flatten := by
  induction l with
  | nil => rfl
  | cons a l ih => simp [List.flatMap_cons, List.flatten_append, ih]

theorem flatMap_perm_congr {α β : Type} :
    ∀ (l : List α) (f g : α → List β), (∀ a ∈ l, (f a).Perm (g a)) →
      (l.flatMap f).Perm (l.flatMap g) := by
  intro l f g h
  induction l with
  | nil => exact List.Perm.refl _
  | cons a l ih =>
    simp only [List.flatMap_cons]
    exact (h a (List.mem_cons_self _ _)).append
      (ih fun a' ha' => h a' (List.mem_cons_of_mem _ ha'))

theorem mergeCore_flatten (sim : String → String → Bool) (sz : String → List ℕ)
    (paths : List String) : (mergeCore sim sz paths).flatten.Perm paths := by
  unfold mergeCore
  rw [flatten_flatMap_eq]
  have h1 : ∀ b ∈ buildBuckets sz paths,
      (((subgroup sim b.2).map groupList).flatten).Perm b.2 := by
    intro b _
    rw [← List.flatMap_def]
    exact subgroup_join sim b.2
  exact (flatMap_perm_congr _ _ _ h1).trans (buildBuckets_join sz paths)

/-- C4: for every input list of distinct image paths, the groups produced
by the grouping engine are pairwise disjoint — no path appears in two
groups. -/
theorem groups_disjoint_spec :
    ∀ (img : String → NDArray) (paths : List String), paths.Nodup →
      (merge_artboard_group img paths).Pairwise fun g1 g2 =>
        ∀ p, p ∈ g1 → p ∉ g2 := by
  intro img paths hnd
  have hperm := mergeCore_flatten (simOf img) (szKey img) paths
  have hjoin : (merge_artboard_group img paths).flatten.Nodup :=
    (hperm.nodup_iff).mpr hnd
  have hp := (List.nodup_flatten.mp hjoin).2
  refine hp.imp fun h => ?_
  intro p hp' hq'
  exact h hp' hq'

theorem groups_disjoint_spec_witness :
    (merge_artboard_group wImg ["A", "B", "C", "D"]).Pairwise fun g1 g2 =>
      ∀ p, p ∈ g1 → p ∉ g2 :=
  groups_disjoint_spec wImg ["A", "B", "C", "D"] (by decide)

/-! ### Group membership, uniform bucket sizes, similarity invariants -/

theorem mergeCore_mem (sim : String → String → Bool) (sz : String → List ℕ)
    (paths : List String) (g : List String) (h : g ∈ mergeCore sim sz paths) :
    ∃ b ∈ buildBuckets sz paths, ∃ g0 ∈ subgroup sim b.2, g = groupList g0 := by
  unfold mergeCore at h
  rw [List.mem_flatMap] at h
  obtain ⟨b, hb, hg⟩ := h
  rw [List.mem_map] at hg
  obtain ⟨g0, hg0, he⟩ := hg
  exact ⟨b, hb, g0, hg0, he.symm⟩

theorem subgroup_sim (sim : String → String → Bool) (paths : List String) :
    ∀ g ∈ subgroup sim paths, ∀ m ∈ g.2, sim m g.1 = true := by
  have gen : ∀ (l : List String) (init : List (String × List String)),
      (∀ g ∈ init, ∀ m ∈ g.2, sim m g.1 = true) →
      ∀ g ∈ l.foldl (insertPath sim) init, ∀ m ∈ g.2, sim m g.1 = true := by
    intro l
    induction l with
    | nil => intro init h; simpa using h
    | cons p ps ih =>
      intro init hinv
      rw [List.foldl_cons]
      refine ih _ ?_
      intro g hg m hm
      rcases insertPath_mem sim init p g hg with h1 | h1 | ⟨r, ms, hmem, he, hs⟩
      · exact hinv g h1 m hm
      · subst h1
        exact absurd hm (List.not_mem_nil m)
      · subst he
        simp only at hm ⊢
        rcases List.mem_append.mp hm with h2 | h2
        · exact hinv (r, ms) hmem m h2
        · simp only [List.mem_singleton] at h2
          subst h2
          exact hs
  exact gen paths [] (by simp)

theorem subgroup_member_sub (sim : String → String → Bool) (paths : List String) :
    ∀ g ∈ subgroup sim paths, ∀ m ∈ groupList g, m ∈ paths := by
  intro g hg m hm
  exact (subgroup_join sim paths).mem_iff.mp (List.mem_flatMap.mpr ⟨g, hg, hm⟩)

theorem mergeCore_group_sz (sim : String → String → Bool) (sz : String → List ℕ)
    (paths : List String) (g : List String) (h : g ∈ mergeCore sim sz paths) :
    ∀ p ∈ g, ∀ q ∈ g, sz p = sz q := by
  obtain ⟨b, hb, g0, hg0, rfl⟩ := mergeCore_mem sim sz paths g h
  intro p hp q hq
  have hp' : p ∈ b.2 := subgroup_member_sub sim b.2 g0 hg0 p hp
  have hq' : q ∈ b.2 := subgroup_member_sub sim b.2 g0 hg0 q hq
  rw [buildBuckets_sz sz paths b hb p hp', buildBuckets_sz sz paths b hb q hq']

/-! ### Lemmas about the comparison trace -/

theorem scanTrace_mem (sim : String → String → Bool) (p : String) :
    ∀ gs : List (String × List String), ∀ pr ∈ scanTrace sim p gs,
      pr.1 = p ∧ pr.2 ∈ gs.map Prod.fst := by
  intro gs
  induction gs with
  | nil => intro pr hpr; exact absurd hpr (by simp [scanTrace])
  | cons g gs ih =>
    obtain ⟨r, ms⟩ := g
    intro pr hpr
    by_cases h : sim p r
    · rw [scanTrace, if_pos h] at hpr
      simp only [List.mem_singleton] at hpr
      subst hpr
      simp
    · rw [scanTrace, if_neg h] at hpr
      rcases List.mem_cons.mp hpr with h1 | h1
      · subst h1; simp
      · obtain ⟨h2, h3⟩ := ih pr h1
        exact ⟨h2, List.mem_cons_of_mem _ h3⟩

theorem subgroupT_fst (sim : String → String → Bool) :
    ∀ (l : List String) (gs : List (String × List String))
      (tr : List (String × String)),
      (l.foldl (subgroupStepT sim) (gs, tr)).1 = l.foldl (insertPath sim) gs := by
  intro l
  induction l with
  | nil => intro gs tr; rfl
  | cons p ps ih =>
    intro gs tr
    rw [List.foldl_cons, List.foldl_cons]
    exact ih _ _

theorem insertPath_reps (sim : String → String → Bool)
    (gs : List (String × List String)) (p : String) :
    ∀ r ∈ gs.map Prod.fst, r ∈ (insertPath sim gs p).map Prod.fst := by
  intro r hr
  rw [insertPath]
  by_cases h : (scanGroups sim p gs).2
  · rw [if_pos h, scanGroups_reps]
    exact hr
  · rw [if_neg h, List.map_append, scanGroups_reps]
    exact List.mem_append_left _ hr

theorem rep_mem_flatMap (gs : List (String × List String)) :
    ∀ r ∈ gs.map Prod.fst, r ∈ gs.flatMap groupList := by
  intro r hr
  rw [List.mem_map] at hr
  obtain ⟨g, hg, rfl⟩ := hr
  exact List.mem_flatMap.mpr ⟨g, hg, List.mem_cons_self _ _⟩

theorem foldl_trace_target (sim : String → String → Bool) :
    ∀ (l : List String) (gs : List (String × List String))
      (tr : List (String × String)),
      (∀ pr ∈ tr, pr.2 ∈ gs.map Prod.fst) →
      ∀ pr ∈ (l.foldl (subgroupStepT sim) (gs, tr)).2,
        pr.2 ∈ (l.foldl (insertPath sim) gs).map Prod.fst := by
  intro l
  induction l with
  | nil => intro gs tr h pr hpr; exact h pr hpr
  | cons p ps ih =>
    intro gs tr h pr hpr
    rw [List.foldl_cons] at hpr
    rw [List.foldl_cons]
    refine ih _ _ ?_ pr hpr
    intro pr' hpr'
    rcases List.mem_append.mp hpr' with h1 | h1
    · exact insertPath_reps sim gs p pr'.2 (h pr' h1)
    · exact insertPath_reps sim gs p pr'.2 (scanTrace_mem sim p gs pr' h1).2

theorem foldl_trace_mem (sim : String → String → Bool) :
    ∀ (l l₀ : List String) (gs : List (String × List String))
      (tr : List (String × String)),
      (∀ m ∈ gs.flatMap groupList, m ∈ l₀) →
      (∀ pr ∈ tr, pr.1 ∈ l₀ ∧ pr.2 ∈ l₀) →
      (∀ q ∈ l, q ∈ l₀) →
      ∀ pr ∈ (l.foldl (subgroupStepT sim) (gs, tr)).2, pr.1 ∈ l₀ ∧ pr.2 ∈ l₀ := by
  intro l
  induction l with
  | nil => intro l₀ gs tr _ h2 _ pr hpr; exact h2 pr hpr
  | cons p ps ih =>
    intro l₀ gs tr h1 h2 h3 pr hpr
    rw [List.foldl_cons] at hpr
    refine ih l₀ _ _ ?_ ?_ (fun q hq => h3 q (List.mem_cons_of_mem _ hq)) pr hpr
    · intro m hm
      have := (insertPath_join sim gs p).mem_iff.mp hm
      rcases List.mem_cons.mp this with e | e
      · subst e
        exact h3 m (List.mem_cons_self _ _)
      · exact h1 m e
    · intro pr' hpr'
      rcases List.mem_append.mp hpr' with e | e
      · exact h2 pr' e
      · obtain ⟨e1, e2⟩ := scanTrace_mem sim p gs pr' e
        refine ⟨e1 ▸ h3 p (List.mem_cons_self _ _), ?_⟩
        exact h1 pr'.2 (rep_mem_flatMap gs pr'.2 e2)

theorem subgroupT_trace_target (sim : String → String → Bool) (l : List String) :
    ∀ pr ∈ (subgroupT sim l).2, pr.2 ∈ (subgroup sim l).map Prod.fst := by
  intro pr hpr
  exact foldl_trace_target sim l [] [] (by simp) pr hpr

theorem subgroupT_trace_mem (sim : String → String → Bool) (l : List String) :
    ∀ pr ∈ (subgroupT sim l).2, pr.1 ∈ l ∧ pr.2 ∈ l := by
  intro pr hpr
  exact foldl_trace_mem sim l l [] [] (by simp) (by simp) (fun q hq => hq) pr hpr

theorem mergeTrace_mem (sim : String → String → Bool) (sz : String → List ℕ)
    (paths : List String) :
    ∀ pr ∈ mergeTrace sim sz paths,
      ∃ b ∈ buildBuckets sz paths,
        pr.1 ∈ b.2 ∧ pr.2 ∈ b.2 ∧ pr.2 ∈ (subgroup sim b.2).map Prod.fst := by
  intro pr hpr
  unfold mergeTrace at hpr
  rw [List.mem_flatMap] at hpr
  obtain ⟨b, hb, hpr'⟩ := hpr
  obtain ⟨h1, h2⟩ := subgroupT_trace_mem sim b.2 pr hpr'
  exact ⟨b, hb, h1, h2, subgroupT_trace_target sim b.2 pr hpr'⟩

theorem flatten_nodup_unique {α : Type} :
    ∀ (L : List (List α)) (g g' : List α) (m : α),
      L.flatten.Nodup → g ∈ L → g' ∈ L → m ∈ g → m ∈ g' → g = g' := by
  intro L
  induction L with
  | nil => intro g g' m _ h; exact absurd h (List.not_mem_nil g)
  | cons x tl ih =>
    intro g g' m hnd hg hg' hm hm'
    rw [List.flatten_cons] at hnd
    rcases List.mem_cons.mp hg with e | e <;> rcases List.mem_cons.mp hg' with e' | e'
    · rw [e, e']
    · exfalso
      have hdisj := List.disjoint_of_nodup_append hnd
      exact hdisj (e ▸ hm) (List.mem_flatten.mpr ⟨g', e', hm'⟩)
    · exfalso
      have hdisj := List.disjoint_of_nodup_append hnd
      exact hdisj (e' ▸ hm') (List.mem_flatten.mpr ⟨g, e, hm⟩)
    · exact ih g g' m hnd.of_append_right e e' hm hm'

/-! ### Evaluation of the concrete fixture run -/

theorem simOf_wImg_BA : simOf wImg "B" "A" = true := by
  have h : mseCrop imgZero imgZero 1 1 1 < 500 := by
    rw [mseCrop_of_sumSq imgZero imgZero 1 1 1 0 (by simp [sumSq, imgZero])]
    norm_num
  show (compare_image (wImg "B") (wImg "A")).getD false = true
  have e1 : wImg "B" = imgZero := by simp [wImg]
  have e2 : wImg "A" = imgZero := by simp [wImg]
  rw [e1, e2, compare_image_eq imgZero imgZero 1 1 1 1 1 1 rfl rfl rfl rfl rfl rfl]
  simp only [min_self]
  rw [decide_eq_true h]
  rfl

theorem simOf_wImg_CA : simOf wImg "C" "A" = false := by
  have h : ¬ mseCrop imgFar imgZero 1 1 1 < 500 := by
    rw [mseCrop_of_sumSq imgFar imgZero 1 1 1 10000 (by simp [sumSq, imgFar, imgZero])]
    norm_num
  show (compare_image (wImg "C") (wImg "A")).getD false = false
  have e1 : wImg "C" = imgFar := by simp [wImg]
  have e2 : wImg "A" = imgZero := by simp [wImg]
  rw [e1, e2, compare_image_eq imgFar imgZero 1 1 1 1 1 1 rfl rfl rfl rfl rfl rfl]
  simp only [min_self]
  rw [decide_eq_false h]
  rfl

theorem wImg_run :
    merge_artboard_group wImg ["A", "B", "C", "D"] = [["A", "B"], ["C"], ["D"]] := by
  have sA : szKey wImg "A" = [1, 1] := rfl
  have sB : szKey wImg "B" = [1, 1] := rfl
  have sC : szKey wImg "C" = [1, 1] := rfl
  have sD : szKey wImg "D" = [2, 2] := rfl
  simp [merge_artboard_group, mergeCore, buildBuckets, addToBuckets, subgroup, insertPath,
    scanGroups, groupList, sA, sB, sC, sD, simOf_wImg_BA, simOf_wImg_CA]

theorem wImg_run3 :
    merge_artboard_group wImg ["A", "B", "C"] = [["A", "B"], ["C"]] := by
  have sA : szKey wImg "A" = [1, 1] := rfl
  have sB : szKey wImg "B" = [1, 1] := rfl
  have sC : szKey wImg "C" = [1, 1] := rfl
  simp [merge_artboard_group, mergeCore, buildBuckets, addToBuckets, subgroup, insertPath,
    scanGroups, groupList, sA, sB, sC, simOf_wImg_BA, simOf_wImg_CA]

theorem wImg_trace :
    mergeTrace (simOf wImg) (szKey wImg) ["A", "B", "C", "D"] =
      [("B", "A"), ("C", "A")] := by
  have sA : szKey wImg "A" = [1, 1] := rfl
  have sB : szKey wImg "B" = [1, 1] := rfl
  have sC : szKey wImg "C" = [1, 1] := rfl
  have sD : szKey wImg "D" = [2, 2] := rfl
  simp [mergeTrace, subgroupT, subgroupStepT, buildBuckets, addToBuckets, subgroup, insertPath,
    scanGroups, scanTrace, sA, sB, sC, sD, simOf_wImg_BA, simOf_wImg_CA]

theorem wImg_manifest :
    sim_groups wImg ["A", "B", "C", "D"] = [["A", "B"]] := by
  unfold sim_groups
  rw [wImg_run]
  decide

/-! ### The remaining claim theorems on the grouping engine -/

theorem scanGroups_all_false (sim : String → String → Bool) (p : String) :
    ∀ gs : List (String × List String), (∀ g ∈ gs, sim p g.1 = false) →
      scanGroups sim p gs = (gs, false) := by
  intro gs
  induction gs with
  | nil => intro; rfl
  | cons g gs ih =>
    obtain ⟨r, ms⟩ := g
    intro h
    have hr : sim p r = false := h (r, ms) (List.mem_cons_self _ _)
    rw [scanGroups, if_neg (by simp [hr])]
    rw [ih fun g' hg' => h g' (List.mem_cons_of_mem _ hg')]

theorem scanGroups_first_match (sim : String → String → Bool) (p : String) :
    ∀ (gs₁ : List (String × List String)) (g : String × List String)
      (gs₂ : List (String × List String)),
      (∀ g' ∈ gs₁, sim p g'.1 = false) → sim p g.1 = true →
      scanGroups sim p (gs₁ ++ g :: gs₂) =
        (gs₁ ++ (g.1, g.2 ++ [p]) :: gs₂, true) := by
  intro gs₁
  induction gs₁ with
  | nil =>
    intro g gs₂ _ hm
    obtain ⟨r, ms⟩ := g
    simp only [List.nil_append]
    rw [scanGroups, if_pos (by simpa using hm)]
  | cons g0 gs₁ ih =>
    intro g gs₂ hf hm
    obtain ⟨r0, ms0⟩ := g0
    have hr0 : sim p r0 = false := hf (r0, ms0) (List.mem_cons_self _ _)
    simp only [List.cons_append]
    rw [scanGroups, if_neg (by simp [hr0])]
    rw [ih g gs₂ (fun g' hg' => hf g' (List.mem_cons_of_mem _ hg')) hm]

/-- C1: in the greedy sub-clustering, each candidate path is compared
against the representative (first member) of each open group in
group-creation order, is appended to the first matching group, and starts
a new singleton group when no representative matches; in particular three
same-size images `A`, `B`, `C` where `B` matches `A` but `C` does not
produce exactly the groups `[A, B]` and `[C]`. -/
theorem greedy_first_match_spec :
    (∀ (sim : String → String → Bool) (groups : List (String × List String))
      (p : String), (∀ g ∈ groups, sim p g.1 = false) →
      insertPath sim groups p = groups ++ [(p, [])]) ∧
    (∀ (sim : String → String → Bool) (gs₁ gs₂ : List (String × List String))
      (g : String × List String) (p : String),
      (∀ g' ∈ gs₁, sim p g'.1 = false) → sim p g.1 = true →
      insertPath sim (gs₁ ++ g :: gs₂) p = gs₁ ++ (g.1, g.2 ++ [p]) :: gs₂) ∧
    (∀ (img : String → NDArray) (A B C : String),
      szKey img A = szKey img B → szKey img B = szKey img C →
      simOf img B A = true → simOf img C A = false →
      merge_artboard_group img [A, B, C] = [[A, B], [C]]) := by
  refine ⟨?_, ?_, ?_⟩
  · intro sim groups p h
    rw [insertPath, scanGroups_all_false sim p groups h]
    rfl
  · intro sim gs₁ gs₂ g p hf hm
    rw [insertPath, scanGroups_first_match sim p gs₁ g gs₂ hf hm]
    rfl
  · intro img A B C hAB hBC hsim1 hsim2
    have h1 : szKey img B = szKey img A := hAB.symm
    have h2 : szKey img C = szKey img A := (hAB.trans hBC).symm
    simp [merge_artboard_group, mergeCore, buildBuckets, addToBuckets, subgroup,
      insertPath, scanGroups, groupList, h1, h2, hsim1, hsim2]

theorem greedy_first_match_spec_witness :
    insertPath (fun _ _ => false) [("X", [])] "Y" = [("X", []), ("Y", [])] ∧
    insertPath (fun _ _ => true) [("X", [])] "Y" = [("X", ["Y"])] ∧
    merge_artboard_group wImg ["A", "B", "C"] = [["A", "B"], ["C"]] := by
  refine ⟨?_, ?_, ?_⟩
  · exact greedy_first_match_spec.1 (fun _ _ => false) [("X", [])] "Y" (by simp)
  · exact greedy_first_match_spec.2.1 (fun _ _ => true) [] [] ("X", []) "Y" (by simp) rfl
  · exact greedy_first_match_spec.2.2 wImg "A" "B" "C" rfl rfl simOf_wImg_BA simOf_wImg_CA

/-- C3: images whose pixel dimensions (`shape[:2]`) differ are never
placed in the same size bucket and the comparator is never invoked on
the pair, in either order; moreover every listed image path belongs to
exactly one bucket, whose key is exactly its own dimensions. -/
theorem size_bucket_partition_spec :
    ∀ (img : String → NDArray) (paths : List String) (A B : String),
      szKey img A ≠ szKey img B →
      ((∀ b ∈ buildBuckets (szKey img) paths, ¬(A ∈ b.2 ∧ B ∈ b.2)) ∧
       (A, B) ∉ mergeTrace (simOf img) (szKey img) paths ∧
       (B, A) ∉ mergeTrace (simOf img) (szKey img) paths) ∧
      ∀ p ∈ paths,
        (∃! b, b ∈ buildBuckets (szKey img) paths ∧ p ∈ b.2) ∧
        ∀ b ∈ buildBuckets (szKey img) paths, p ∈ b.2 → b.1 = szKey img p := by
  intro img paths A B hAB
  constructor
  · refine ⟨?_, ?_, ?_⟩
    · rintro b hb ⟨hA, hB⟩
      exact hAB ((buildBuckets_sz _ paths b hb A hA).trans
        (buildBuckets_sz _ paths b hb B hB).symm)
    · intro h
      obtain ⟨b, hb, h1, h2, _⟩ := mergeTrace_mem _ _ paths (A, B) h
      exact hAB ((buildBuckets_sz _ paths b hb A h1).trans
        (buildBuckets_sz _ paths b hb B h2).symm)
    · intro h
      obtain ⟨b, hb, h1, h2, _⟩ := mergeTrace_mem _ _ paths (B, A) h
      exact hAB ((buildBuckets_sz _ paths b hb A h2).trans
        (buildBuckets_sz _ paths b hb B h1).symm)
  · intro p hp
    constructor
    · have hex : p ∈ (buildBuckets (szKey img) paths).flatMap fun b => b.2 :=
        (buildBuckets_join (szKey img) paths).mem_iff.mpr hp
      obtain ⟨b, hb, hpb⟩ := List.mem_flatMap.mp hex
      refine ⟨b, ⟨hb, hpb⟩, ?_⟩
      rintro b' ⟨hb', hpb'⟩
      exact eq_of_keys_nodup _ b' b (buildBuckets_keys_nodup _ paths) hb' hb
        ((buildBuckets_sz _ _ b' hb' p hpb').symm.trans
          (buildBuckets_sz _ _ b hb p hpb))
    · intro b hb hpb
      exact (buildBuckets_sz _ paths b hb p hpb).symm

theorem size_bucket_partition_spec_witness :
    ((∀ b ∈ buildBuckets (szKey wImg) ["A", "B", "C", "D"],
        ¬("A" ∈ b.2 ∧ "D" ∈ b.2)) ∧
     ("A", "D") ∉ mergeTrace (simOf wImg) (szKey wImg) ["A", "B", "C", "D"] ∧
     ("D", "A") ∉ mergeTrace (simOf wImg) (szKey wImg) ["A", "B", "C", "D"]) ∧
    ∀ p ∈ (["A", "B", "C", "D"] : List String),
      (∃! b, b ∈ buildBuckets (szKey wImg) ["A", "B", "C", "D"] ∧ p ∈ b.2) ∧
      ∀ b ∈ buildBuckets (szKey wImg) ["A", "B", "C", "D"],
        p ∈ b.2 → b.1 = szKey wImg p :=
  size_bucket_partition_spec wImg ["A", "B", "C", "D"] "A" "D" (by decide)

/-- C5: every group in the persisted manifest has at least two members —
singleton groups are filtered out before the manifest is written. -/
theorem manifest_min_size_spec :
    ∀ (img : String → NDArray) (paths : List String) (g : List String),
      g ∈ sim_groups img paths → 2 ≤ g.length := by
  intro img paths g hg
  unfold sim_groups at hg
  rw [List.mem_filter] at hg
  have := of_decide_eq_true hg.2
  omega

theorem manifest_min_size_spec_witness :
    2 ≤ (["A", "B"] : List String).length :=
  manifest_min_size_spec wImg ["A", "B", "C", "D"] ["A", "B"]
    (by rw [wImg_manifest]; exact List.mem_singleton.mpr rfl)

/-- C9: every group the engine emits consists of a first member followed
by members that each satisfied the similarity comparator against that
first member when they were inserted; and (for distinct input paths) two
non-first members of a group are never compared with each other in either
order. -/
theorem group_rep_similarity_spec :
    ∀ (img : String → NDArray) (paths : List String), paths.Nodup →
      ∀ g ∈ merge_artboard_group img paths,
        (∃ r ms, g = r :: ms ∧ ∀ m ∈ ms, simOf img m r = true) ∧
        ∀ m1 ∈ g.tail, ∀ m2 ∈ g.tail,
          (m1, m2) ∉ mergeTrace (simOf img) (szKey img) paths ∧
          (m2, m1) ∉ mergeTrace (simOf img) (szKey img) paths := by
  intro img paths hnd g hg
  have hflnodup : (merge_artboard_group img paths).flatten.Nodup :=
    ((mergeCore_flatten (simOf img) (szKey img) paths).nodup_iff).mpr hnd
  have master : ∀ m ∈ g.tail, ∀ q,
      (q, m) ∉ mergeTrace (simOf img) (szKey img) paths := by
    intro m hm q hq
    obtain ⟨b, hb, _, _, hrep⟩ := mergeTrace_mem (simOf img) (szKey img) paths (q, m) hq
    rw [List.mem_map] at hrep
    obtain ⟨g0', hg0', hm'⟩ := hrep
    have hm2 : g0'.1 = m := hm'
    have hgl : groupList g0' ∈ merge_artboard_group img paths := by
      unfold merge_artboard_group mergeCore
      exact List.mem_flatMap.mpr ⟨b, hb, List.mem_map_of_mem groupList hg0'⟩
    have hm_in_g : m ∈ g := List.mem_of_mem_tail hm
    have hm_in_gl : m ∈ groupList g0' := by
      rw [← hm2]
      exact List.mem_cons_self _ _
    have heq : g = groupList g0' :=
      flatten_nodup_unique _ g (groupList g0') m hflnodup hg hgl hm_in_g hm_in_gl
    have hnd_g : (groupList g0').Nodup :=
      (List.nodup_flatten.mp hflnodup).1 _ hgl
    rw [groupList, List.nodup_cons] at hnd_g
    rw [heq, groupList, List.tail_cons] at hm
    apply hnd_g.1
    rw [hm2]
    exact hm
  constructor
  · obtain ⟨b, hb, g0, hg0, rfl⟩ := mergeCore_mem (simOf img) (szKey img) paths g hg
    exact ⟨g0.1, g0.2, rfl, subgroup_sim (simOf img) b.2 g0 hg0⟩
  · intro m1 h1 m2 h2
    exact ⟨master m2 h2 m1, master m1 h1 m2⟩

theorem group_rep_similarity_spec_witness :
    (∃ r ms, (["A", "B"] : List String) = r :: ms ∧
      ∀ m ∈ ms, simOf wImg m r = true) ∧
    ∀ m1 ∈ (["A", "B"] : List String).tail, ∀ m2 ∈ (["A", "B"] : List String).tail,
      (m1, m2) ∉ mergeTrace (simOf wImg) (szKey wImg) ["A", "B", "C", "D"] ∧
      (m2, m1) ∉ mergeTrace (simOf wImg) (szKey wImg) ["A", "B", "C", "D"] :=
  group_rep_similarity_spec wImg ["A", "B", "C", "D"] (by decide) ["A", "B"]
    (by rw [wImg_run]; exact List.mem_cons_self _ _)

/-! ### The materializer layout -/

theorem pilSize_eq_of_szKey (img : String → NDArray) (A B : String)
    (h : szKey img A = szKey img B) : pilSize img A = pilSize img B := by
  unfold szKey at h
  unfold pilSize
  have h0 : (img A).shape[0]? = (img B).shape[0]? := by
    have := congrArg (fun l => l[0]?) h
    simpa [List.getElem?_take] using this
  have h1 : (img A).shape[1]? = (img B).shape[1]? := by
    have := congrArg (fun l => l[1]?) h
    simpa [List.getElem?_take] using this
  rw [List.getD_eq_getElem?_getD, List.getD_eq_getElem?_getD,
    List.getD_eq_getElem?_getD, List.getD_eq_getElem?_getD, h0, h1]

theorem uniform_pasteOffsets :
    ∀ (sizes : List (ℕ × ℕ)) (w i : ℕ), (∀ s ∈ sizes, s.1 = w) →
      pasteOffsetsAux i sizes = specCumulativeOffsets (i * w) sizes := by
  intro sizes
  induction sizes with
  | nil => intros; rfl
  | cons s ss ih =>
    intro w i h
    have hs : s.1 = w := h s (List.mem_cons_self _ _)
    rw [pasteOffsetsAux, specCumulativeOffsets, hs,
      ih w (i + 1) fun s' hs' => h s' (List.mem_cons_of_mem _ hs'),
      Nat.succ_mul]

/-- C8: every persisted group is nonempty, its composite strip has height
equal to the first member's height and width equal to the first member's
width times the member count, and each member's paste x-offset equals the
cumulative width of the members before it. -/
theorem materializer_layout_spec :
    ∀ (img : String → NDArray) (paths : List String) (g : List String),
      g ∈ sim_groups img paths →
      ∃ p0 rest, g = p0 :: rest ∧
        compositeSize (g.map (pilSize img)) =
          ((pilSize img p0).1 * g.length, (pilSize img p0).2) ∧
        pasteOffsets (g.map (pilSize img)) =
          specCumulativeOffsets 0 (g.map (pilSize img)) := by
  intro img paths g hg
  have hmem : g ∈ merge_artboard_group img paths := List.mem_of_mem_filter hg
  have hsz := mergeCore_group_sz (simOf img) (szKey img) paths g hmem
  obtain ⟨b, hb, g0, hg0, rfl⟩ := mergeCore_mem (simOf img) (szKey img) paths g hmem
  refine ⟨g0.1, g0.2, rfl, ?_, ?_⟩
  · simp [compositeSize, groupList]
  · have hw : ∀ s ∈ (groupList g0).map (pilSize img), s.1 = (pilSize img g0.1).1 := by
      intro s hs
      rw [List.mem_map] at hs
      obtain ⟨q, hq, rfl⟩ := hs
      have hk := hsz q hq g0.1 (List.mem_cons_self _ _)
      exact congrArg Prod.fst (pilSize_eq_of_szKey img q g0.1 hk)
    have := uniform_pasteOffsets ((groupList g0).map (pilSize img))
      (pilSize img g0.1).1 0 hw
    rw [pasteOffsets, this, Nat.zero_mul]

theorem materializer_layout_spec_witness :
    ∃ p0 rest, (["A", "B"] : List String) = p0 :: rest ∧
      compositeSize ((["A", "B"] : List String).map (pilSize wImg)) =
        ((pilSize wImg p0).1 * (["A", "B"] : List String).length,
          (pilSize wImg p0).2) ∧
      pasteOffsets ((["A", "B"] : List String).map (pilSize wImg)) =
        specCumulativeOffsets 0 ((["A", "B"] : List String).map (pilSize wImg)) :=
  materializer_layout_spec wImg ["A", "B", "C", "D"] ["A", "B"]
    (by rw [wImg_manifest]; exact List.mem_singleton.mpr rfl)

/-! ### The error-log content -/

/-- C7 (counterexample): the claim states the log holds exactly the lines
of the collected non-empty diagnostics, but `process` strips each
diagnostic before splitting: for the single collected diagnostic `" a"`
(whose only line is `" a"`) the file holds the line `"a"`, not `" a"`. -/
theorem errorlog_strip_counterexample :
    errorLogLines [" a"] = ["a\n"] ∧
    String.mk (" a".toList ++ ['\n']) ∉ errorLogLines [" a"] ∧
    (" a" : String) ≠ "" ∧
    splitNl " a".toList = [[' ', 'a']] := by
  refine ⟨by decide, by decide, by decide, by decide⟩

/-- C7 (amended): the error-log file contains exactly the set of lines
obtained by splitting each whitespace-stripped non-empty collected
diagnostic on newlines, each written with a trailing newline, and the
written lines are deduplicated by exact match. -/
theorem errorlog_spec :
    (∀ (stderrs : List String) (line : String),
      line ∈ errorLogLines stderrs ↔
        ∃ s ∈ stderrs, s ≠ "" ∧
          ∃ l ∈ splitNl (pyStrip s.toList), line = String.mk (l ++ ['\n'])) ∧
    ∀ stderrs, (errorLogLines stderrs).Nodup := by
  constructor
  · intro stderrs line
    unfold errorLogLines
    rw [List.mem_dedup, List.mem_map]
    constructor
    · rintro ⟨l, hl, rfl⟩
      rw [List.mem_flatMap] at hl
      obtain ⟨s, hs, hl2⟩ := hl
      rw [List.mem_filter] at hs
      exact ⟨s, hs.1, by simpa using hs.2, l, hl2, rfl⟩
    · rintro ⟨s, hs, hne, l, hl, rfl⟩
      exact ⟨l, List.mem_flatMap.mpr ⟨s, List.mem_filter.mpr ⟨hs, by simpa⟩, hl⟩, rfl⟩
  · intro stderrs
    exact List.nodup_dedup _

/-! ### Missing-font extraction -/

theorem lexLe_total : ∀ a b : List Char, lexLe a b = true ∨ lexLe b a = true := by
  intro a
  induction a with
  | nil => intro b; left; rfl
  | cons x xs ih =>
    intro b
    cases b with
    | nil => right; rfl
    | cons y ys =>
      by_cases hxy : x = y
      · subst hxy
        rcases ih ys with h | h
        · left; simp [lexLe, h]
        · right; simp [lexLe, h]
      · rcases lt_or_gt_of_ne hxy with h | h
        · left; simp [lexLe, hxy, h]
        · right
          have hyx : y ≠ x := Ne.symm hxy
          simp [lexLe, hyx, h]

theorem lexLe_trans :
    ∀ a b c : List Char, lexLe a b = true → lexLe b c = true → lexLe a c = true := by
  intro a
  induction a with
  | nil => intros; rfl
  | cons x xs ih =>
    intro b c hab hbc
    cases b with
    | nil => exact absurd hab (by simp [lexLe])
    | cons y ys =>
      cases c with
      | nil => exact absurd hbc (by simp [lexLe])
      | cons z zs =>
        by_cases hxy : x = y <;> by_cases hyz : y = z
        · subst hxy
          subst hyz
          simp only [lexLe, if_pos rfl] at hab hbc ⊢
          exact ih ys zs hab hbc
        · subst hxy
          simp only [lexLe, if_neg hyz, decide_eq_true_eq] at hbc
          simp [lexLe, hyz, hbc]
        · subst hyz
          simp only [lexLe, if_neg hxy, decide_eq_true_eq] at hab
          simp [lexLe, hxy, hab]
        · simp only [lexLe, if_neg hxy, decide_eq_true_eq] at hab
          simp only [lexLe, if_neg hyz, decide_eq_true_eq] at hbc
          have hxz : x < z := lt_trans hab hbc
          simp [lexLe, ne_of_lt hxz, hxz]

theorem stringMk_toList : ∀ s : String, String.mk s.toList = s := by
  intro s
  rfl

/-- C6 (counterexample): the claim's scenario lines start with the
pattern itself, but the regex begins with `.+`, which requires at least
one character before `Client requested name`; `re.match` therefore fails
on every such line and the extraction returns the empty list instead of
`["Arial", "Helvetica Neue"]`. -/
theorem font_scenario_counterexample :
    get_missing_font
      ["Client requested name \"Helvetica Neue\"\n",
       "Client requested name \"Helvetica Neue\"\n",
       "Client requested name \"Arial\"\n"] = [] ∧
    ([] : List String) ≠ ["Arial", "Helvetica Neue"] := by
  refine ⟨by decide, by decide⟩

/-- C6 (amended): the extraction collects, for every line on which the
pattern `Client requested name "<font>"` matches with at least one
preceding character (the regex's leading `.+`), the captured font name,
and returns the deduplicated names sorted in Python string order; a log
whose lines carry such a prefix, with `Helvetica Neue` twice and `Arial`
once, yields `["Arial", "Helvetica Neue"]`. -/
theorem font_extraction_spec :
    (∀ (lines : List String) (s : String),
      s ∈ get_missing_font lines ↔
        ∃ l ∈ lines, lineCapture l.toList = some s.toList) ∧
    (∀ lines, (get_missing_font lines).Pairwise fun a b =>
      lexLe a.toList b.toList = true) ∧
    (∀ lines, (get_missing_font lines).Nodup) ∧
    get_missing_font
      ["x Client requested name \"Helvetica Neue\"\n",
       "x Client requested name \"Helvetica Neue\"\n",
       "x Client requested name \"Arial\"\n"] = ["Arial", "Helvetica Neue"] := by
  refine ⟨?_, ?_, ?_, by decide⟩
  · intro lines s
    unfold get_missing_font
    rw [List.mem_map]
    constructor
    · rintro ⟨cs, hcs, rfl⟩
      have hd := (List.perm_insertionSort _ _).mem_iff.mp hcs
      rw [List.mem_dedup, List.mem_filterMap] at hd
      obtain ⟨l, hl, hc⟩ := hd
      exact ⟨l, hl, hc⟩
    · rintro ⟨l, hl, hc⟩
      refine ⟨s.toList, ?_, stringMk_toList s⟩
      apply (List.perm_insertionSort _ _).mem_iff.mpr
      rw [List.mem_dedup, List.mem_filterMap]
      exact ⟨l, hl, hc⟩
  · intro lines
    unfold get_missing_font
    rw [List.pairwise_map]
    have hs := @List.sorted_insertionSort (List Char)
      (fun a b => lexLe a b = true) (fun _ _ => inferInstance)
      ⟨lexLe_total⟩ ⟨lexLe_trans⟩
      ((lines.filterMap fun l => lineCapture l.toList).dedup)
    exact hs.imp fun h => h
  · intro lines
    unfold get_missing_font
    refine List.Nodup.map ?_ ?_
    · intro a b h
      simpa using congrArg String.toList (h : String.mk a = String.mk b)
    · exact ((List.perm_insertionSort _ _).nodup_iff).mpr (List.nodup_dedup _)

end SketchDataset
